import Mathlib

/-!
Verification of the SwiftTab (safari-mru) core against its design document.

The development shallowly embeds the relevant parts of
`extension/src/background.ts` (the MRU store, the favicon cache, tab
activation and the finalize message handler) and of the HUD content script
(selection stepping).  JavaScript arrays become Lean lists, JS `Map`s become
association lists with unique keys, machine integers become `Nat`/`Int`
(JS `%` is the truncated remainder `Int.tmod`), and effectful results become
`Option`.  Each definition is translated from the source file it names.
-/

namespace SwiftTab

/-- Tab identifiers are integers in the host API. -/
abbrev TabId := Nat

/-! ## JavaScript arithmetic helpers -/

/-- The JavaScript remainder operator on integers truncates toward zero,
which is `Int.tmod`. -/
def jsRem (a b : Int) : Int := a.tmod b

theorem tmod_neg_arg (a b : Int) : (-a).tmod b = -(a.tmod b) := by
  simp [Int.tmod_def, Int.neg_tdiv]
  ring

theorem tmod_gt_neg (a b : Int) (hb : 0 < b) : -b < a.tmod b := by
  rcases le_or_lt 0 a with ha | ha
  · rw [Int.tmod_eq_emod ha hb.le]
    have := Int.emod_nonneg a hb.ne.symm
    omega
  · have h1 : Int.tmod (-a) b < b := Int.tmod_lt_of_pos (-a) hb
    have h2 : (-a).tmod b = -(a.tmod b) := tmod_neg_arg a b
    omega

/-- The idiom `((a % b) + b) % b` from the source normalises any integer to
the canonical nonnegative residue, i.e. to the Euclidean remainder. -/
theorem jsRem_norm_eq_emod (a b : Int) (hb : 0 < b) :
    jsRem (jsRem a b + b) b = a % b := by
  unfold jsRem
  have hlow : -b < a.tmod b := tmod_gt_neg a b hb
  rw [Int.tmod_eq_emod (by omega) hb.le, Int.tmod_def]
  have hx : a - b * a.tdiv b + b = a + b * (1 - a.tdiv b) := by ring
  rw [hx, Int.add_mul_emod_self_left]

/-! ## MRU store list operations

Translated from the `mruStore` closure in `extension/src/background.ts`.
A stack is the per-window array of tab ids, most recent first.  `indexOf`
on a JS array is `List.findIdx?` (with `-1` mapped to `none`),
`splice(i, 1)` is `List.eraseIdx i`, `unshift` is cons and `push` is
append at the tail. -/

/-- `touch(windowId, tabId)`: look up the index of `tabId`; return unchanged
if it is already at position 0; otherwise splice it out (when present) and
unshift it to the front. -/
def touch (s : List TabId) (t : TabId) : List TabId :=
  match s.findIdx? (· = t) with
  | some 0 => s
  | some i => t :: s.eraseIdx i
  | none => t :: s

/-- `append(windowId, tabId)`: push at the tail only when absent. -/
def append (s : List TabId) (t : TabId) : List TabId :=
  if t ∈ s then s else s ++ [t]

/-- `remove(windowId, tabId)`: splice out the first occurrence when present.
(The store additionally drops the window entry when the stack empties; that
bookkeeping does not change the stack contents.) -/
def remove (s : List TabId) (t : TabId) : List TabId :=
  match s.findIdx? (· = t) with
  | none => s
  | some i => s.eraseIdx i

/-- The `while (existingIdx !== -1)` loop of `replace`: repeatedly splice out
the first occurrence of `t` until none remains. -/
def eraseAllLoop (s : List TabId) (t : TabId) : List TabId :=
  match h : s.findIdx? (· = t) with
  | none => s
  | some i => eraseAllLoop (s.eraseIdx i) t
termination_by s.length
decreasing_by
  obtain ⟨hlt, -⟩ := List.findIdx?_eq_some_iff_getElem.mp h
  rw [List.length_eraseIdx]
  simp only [hlt, if_true]
  omega

/-- JS `splice(i, 0, x)` inserts `x` at index `i`; a start index past the end
is clamped to the length, so the element is appended at the tail. -/
def spliceInsert (s : List TabId) (i : Nat) (t : TabId) : List TabId :=
  s.take i ++ t :: s.drop i

/-- `replace(windowId, fromTabId, toTabId)`: find `fromTabId` (return `none`,
i.e. `false`, when absent), splice it out, drop every occurrence of
`toTabId`, and splice `toTabId` in at the found index. -/
def replace (s : List TabId) (fromTab toTab : TabId) : Option (List TabId) :=
  match s.findIdx? (· = fromTab) with
  | none => none
  | some i => some (spliceInsert (eraseAllLoop (s.eraseIdx i) toTab) i toTab)

/-- One store mutation, for reasoning about arbitrary event sequences. -/
inductive MruOp where
  | touch (t : TabId)
  | append (t : TabId)
  | remove (t : TabId)

/-- Apply one mutation to a window stack. -/
def applyOp (s : List TabId) : MruOp → List TabId
  | .touch t => touch s t
  | .append t => append s t
  | .remove t => remove s t

/-- Apply a sequence of mutations in order. -/
def runOps (s : List TabId) (ops : List MruOp) : List TabId :=
  ops.foldl applyOp s

/-! ## Tab activation (`activateAt`, background.ts lines 663-675) -/

/-- `activateAt(windowId, position)`: on the window stack, normalise
`position` with `((position % len) + len) % len` and activate the tab at that
index unless it is 0.  The result is the id of the tab passed to
`chrome.tabs.update`, or `none` when no activation happens. -/
def activateAt (stack : List TabId) (position : Int) : Option TabId :=
  if stack.length = 0 then none
  else
    let len : Int := (stack.length : Int)
    let normalized := jsRem (jsRem position len + len) len
    if normalized = 0 then none
    else stack[normalized.toNat]?

/-- The `mru-finalize` handler (background.ts lines 808-823) without an
explicit `tabId` computes `Math.max(0, msg.index ?? 1)` and calls
`activateAt` with it. -/
def finalizeIndex (msgIndex : Option Int) : Int :=
  max 0 (msgIndex.getD 1)

/-- Effect of the `mru-finalize` message on a window stack. -/
def finalizeHandler (stack : List TabId) (msgIndex : Option Int) : Option TabId :=
  activateAt stack (finalizeIndex msgIndex)

/-! ## HUD selection stepping (content script bundled in background.ts,
lines 1012-1031): `wrapIndex`, `moveSelection`, `flushPendingMoves` -/

/-- `wrapIndex(n)`: 0 when there are no items, otherwise
`((n % max) + max) % max` with `max` the item count. -/
def wrapIndex (itemCount : Nat) (n : Int) : Int :=
  if itemCount = 0 then 0
  else jsRem (jsRem n itemCount + itemCount) itemCount

/-- `moveSelection(delta)`: the new selection index. -/
def moveSelection (itemCount : Nat) (index delta : Int) : Int :=
  wrapIndex itemCount (index + delta)

/-- `flushPendingMoves()`: apply the accumulated pending moves one signed
unit step at a time. -/
def flushPendingMoves (itemCount : Nat) (index pending : Int) : Int :=
  if pending = 0 then index
  else if 0 < pending then
    flushPendingMoves itemCount (moveSelection itemCount index 1) (pending - 1)
  else
    flushPendingMoves itemCount (moveSelection itemCount index (-1)) (pending + 1)
termination_by pending.natAbs
decreasing_by
  · omega
  · omega

/-- Selection indices visited by a sequence of stepped chord presses during
an active session (the index after each press, in order). -/
def stepTrace (itemCount : Nat) (index : Int) : List Int → List Int
  | [] => []
  | d :: ds =>
      let next := moveSelection itemCount index d
      next :: stepTrace itemCount next ds

/-! ## Bridging lemmas: `indexOf`/`splice` against `erase`/`filter` -/

theorem findIdx?_none_iff_not_mem (s : List TabId) (t : TabId) :
    s.findIdx? (· = t) = none ↔ t ∉ s := by
  rw [List.findIdx?_eq_none_iff]
  constructor
  · intro h hmem
    have := h t hmem
    simp at this
  · intro h x hx
    simp only [decide_eq_false_iff_not]
    rintro rfl
    exact h hx

theorem eraseIdx_of_findIdx? (s : List TabId) (t : TabId) :
    ∀ i, s.findIdx? (· = t) = some i → s.eraseIdx i = s.erase t := by
  induction s with
  | nil => intro i h; simp [List.findIdx?] at h
  | cons x xs ih =>
    intro i h
    by_cases hx : x = t
    · subst hx
      simp [List.findIdx?_cons] at h
      subst h
      simp [List.eraseIdx, List.erase_cons_head]
    · have hxb : (decide (x = t)) = false := by simp [hx]
      simp [List.findIdx?_cons, hxb] at h
      obtain ⟨j, hj, rfl⟩ := h
      rw [List.eraseIdx_cons_succ, List.erase_cons_tail, ih j hj]
      simp [hx]

theorem touch_eq_cons_erase (s : List TabId) (t : TabId) :
    touch s t = t :: s.erase t := by
  unfold touch
  split
  · next h =>
    obtain ⟨hlt, hp, -⟩ := List.findIdx?_eq_some_iff_getElem.mp h
    cases s with
    | nil => simp at hlt
    | cons a as =>
      simp at hp
      subst hp
      simp [List.erase_cons_head]
  · next i h => rw [eraseIdx_of_findIdx? s t _ h]
  · next h =>
    rw [List.erase_of_not_mem ((findIdx?_none_iff_not_mem s t).mp h)]

theorem remove_eq_erase (s : List TabId) (t : TabId) :
    remove s t = s.erase t := by
  unfold remove
  split
  · next h =>
    rw [List.erase_of_not_mem ((findIdx?_none_iff_not_mem s t).mp h)]
  · next i h => exact eraseIdx_of_findIdx? s t _ h

theorem eraseAllLoop_of_none (s : List TabId) (t : TabId)
    (h : s.findIdx? (· = t) = none) : eraseAllLoop s t = s := by
  rw [eraseAllLoop]
  split
  · rfl
  · next i hi => rw [h] at hi; cases hi

theorem eraseAllLoop_of_some (s : List TabId) (t : TabId) (i : Nat)
    (h : s.findIdx? (· = t) = some i) :
    eraseAllLoop s t = eraseAllLoop (s.eraseIdx i) t := by
  rw [eraseAllLoop]
  split
  · next hn => rw [h] at hn; cases hn
  · next j hj =>
    rw [h] at hj
    injection hj with hj
    rw [hj]

theorem eraseAllLoop_eq_filter (s : List TabId) (t : TabId) :
    eraseAllLoop s t = s.filter (· ≠ t) := by
  induction s, t using eraseAllLoop.induct with
  | case1 s t h =>
    rw [eraseAllLoop_of_none s t h]
    have hnm := (findIdx?_none_iff_not_mem s t).mp h
    rw [List.filter_eq_self.mpr]
    intro x hx
    simp only [ne_eq, decide_eq_true_eq]
    rintro rfl
    exact hnm hx
  | case2 s t i h ih =>
    rw [eraseAllLoop_of_some s t i h]
    rw [ih, eraseIdx_of_findIdx? s t _ h]
    have hmem : t ∈ s := by
      obtain ⟨hlt, hp, -⟩ := List.findIdx?_eq_some_iff_getElem.mp h
      simp at hp
      exact hp ▸ List.getElem_mem hlt
    clear h ih
    induction s with
    | nil => rfl
    | cons a as ihs =>
      by_cases ha : a = t
      · subst ha
        simp [List.erase_cons_head]
      · rw [List.erase_cons_tail (by simp [ha])]
        simp only [List.filter_cons]
        have : (decide (a ≠ t)) = true := by simp [ha]
        rw [this]
        simp only [if_true]
        by_cases hmem2 : t ∈ as
        · rw [ihs hmem2]
        · simp at hmem
          rcases hmem with h1 | h2
          · exact absurd h1.symm ha
          · exact absurd h2 hmem2

theorem touch_nodup (s : List TabId) (t : TabId) (h : s.Nodup) :
    (touch s t).Nodup := by
  rw [touch_eq_cons_erase]
  refine List.nodup_cons.mpr ⟨?_, h.erase t⟩
  intro hmem
  exact absurd (h.mem_erase_iff.mp hmem).1 (by simp)

theorem append_nodup (s : List TabId) (t : TabId) (h : s.Nodup) :
    (append s t).Nodup := by
  unfold append
  split
  · exact h
  · next hmem =>
    refine List.nodup_append.mpr ⟨h, List.nodup_singleton t, ?_⟩
    intro a ha hb
    simp at hb
    subst hb
    exact hmem ha

theorem remove_nodup (s : List TabId) (t : TabId) (h : s.Nodup) :
    (remove s t).Nodup := by
  rw [remove_eq_erase]
  exact h.erase t

example : touch [3, 5, 7] 5 = [5, 3, 7] := by decide
example : touch [3, 5, 7] 3 = [3, 5, 7] := by decide
example : touch [3, 5, 7] 9 = [9, 3, 5, 7] := by decide
example : append [3, 5] 5 = [3, 5] := by decide
example : append [3, 5] 7 = [3, 5, 7] := by decide
example : remove [5, 3, 7] 3 = [5, 7] := by decide
example : activateAt [5, 3, 7] 0 = none := by decide
example : activateAt [5, 3, 7] 1 = some 3 := by decide
example : activateAt [5, 3, 7] 3 = none := by decide
example : stepTrace 3 0 [1, 1, 1] = [1, 2, 0] := by decide

/-! ## Claim theorems -/

/-- C1: for every window whose MRU stack is non-empty, finalizing with index 0
activates no tab (pure cancel), and finalizing with index k, 1 ≤ k < stack
length, activates the tab at recency position k of that stack, the currently
active tab counted as position 0. -/
theorem activateAt_finalize_contract (s : List TabId) (hs : s ≠ [])
    (k : Nat) (hk1 : 1 ≤ k) (hk2 : k < s.length) :
    activateAt s 0 = none ∧ activateAt s (k : Int) = some (s.get ⟨k, hk2⟩) := by
  have hlen : 0 < s.length := List.length_pos.mpr hs
  have hlenI : (0 : Int) < (s.length : Int) := by exact_mod_cast hlen
  have hne : ¬ s.length = 0 := by omega
  constructor
  · unfold activateAt
    rw [if_neg hne]
    simp [jsRem_norm_eq_emod _ _ hlenI]
  · unfold activateAt
    rw [if_neg hne]
    simp only [jsRem_norm_eq_emod _ _ hlenI]
    have hkmod : (k : Int) % (s.length : Int) = (k : Int) :=
      Int.emod_eq_of_lt (by positivity) (by exact_mod_cast hk2)
    rw [hkmod]
    rw [if_neg (by exact_mod_cast Nat.one_le_iff_ne_zero.mp hk1)]
    simp only [Int.toNat_natCast]
    rw [List.getElem?_eq_getElem hk2]
    simp [List.get_eq_getElem]

/-- C1 witness: the stack [5, 3, 7] with 5 active; finalizing 0 cancels and
finalizing 1 activates tab 3, the previously active tab. -/
theorem activateAt_finalize_contract_witness :
    activateAt [5, 3, 7] 0 = none ∧ activateAt [5, 3, 7] 1 = some 3 :=
  activateAt_finalize_contract [5, 3, 7] (by decide) 1 (by decide) (by decide)

/-- C2: after any finite sequence of touch, append and remove operations
starting from a duplicate-free stack, the stack contains no duplicate ids. -/
theorem mru_ops_preserve_nodup (ops : List MruOp) (s : List TabId)
    (h : s.Nodup) : (runOps s ops).Nodup := by
  induction ops generalizing s with
  | nil => exact h
  | cons op ops ih =>
    cases op with
    | touch t => exact ih _ (touch_nodup s t h)
    | append t => exact ih _ (append_nodup s t h)
    | remove t => exact ih _ (remove_nodup s t h)

/-- C2 witness: a concrete event sequence from the empty stack. -/
theorem mru_ops_preserve_nodup_witness :
    (runOps [] [MruOp.touch 5, MruOp.append 7, MruOp.touch 3,
      MruOp.remove 5, MruOp.touch 7]).Nodup :=
  mru_ops_preserve_nodup _ [] (by decide)

/-- C3: touch(t) puts t at position 0 with the remaining entries equal to the
previous stack with t removed in unchanged relative order, and is the
identity when t was already at position 0 (it holds whether t was absent, at
position 0, or elsewhere). -/
theorem touch_spec (s : List TabId) (t : TabId) :
    touch s t = t :: s.erase t ∧
    (touch s t).head? = some t ∧
    (touch s t).tail = s.erase t ∧
    (s.head? = some t → touch s t = s) := by
  have he := touch_eq_cons_erase s t
  refine ⟨he, by rw [he]; rfl, by rw [he]; rfl, ?_⟩
  intro hh
  rw [he]
  cases s with
  | nil => cases hh
  | cons a as =>
    simp only [List.head?_cons, Option.some.injEq] at hh
    subst hh
    rw [List.erase_cons_head]

/-- C3 witness: touching the tab already at position 0 is a no-op. -/
theorem touch_spec_witness : touch [5, 3] 5 = [5, 3] :=
  (touch_spec [5, 3] 5).2.2.2 rfl

/-- C4: with n ≥ 1 items, a chord press moves the selection index to
(index + delta) mod n with delta = +1 (or -1 with the secondary modifier),
wrapping rather than clamping, so the index stays in the interval from 0
to n; and with 3 items three forward steps from index 0 visit 1, 2 and
wrap back to 0. -/
theorem hud_selection_wrap (n : Nat) (hn : 1 ≤ n) (i d : Int) :
    moveSelection n i d = (i + d) % (n : Int) ∧
    0 ≤ moveSelection n i d ∧
    moveSelection n i d < (n : Int) ∧
    stepTrace 3 0 [1, 1, 1] = [1, 2, 0] := by
  have hnI : (0 : Int) < (n : Int) := by exact_mod_cast hn
  have h1 : moveSelection n i d = (i + d) % (n : Int) := by
    unfold moveSelection wrapIndex
    rw [if_neg (by omega)]
    exact jsRem_norm_eq_emod _ _ hnI
  refine ⟨h1, ?_, ?_, by decide⟩
  · rw [h1]
    exact Int.emod_nonneg _ (by omega)
  · rw [h1]
    exact Int.emod_lt_of_pos _ hnI

/-- C4 witness: a forward step from index 2 of 3 wraps to 0. -/
theorem hud_selection_wrap_witness :
    moveSelection 3 2 1 = ((2 : Int) + 1) % 3 ∧
    0 ≤ moveSelection 3 2 1 ∧
    moveSelection 3 2 1 < (3 : Int) ∧
    stepTrace 3 0 [1, 1, 1] = [1, 2, 0] :=
  hud_selection_wrap 3 (by decide) 2 1

/-- C10: activateAt reduces the requested position modulo the stack length,
so on a non-empty stack every non-negative position either activates nothing
or accesses a valid index; a position that is a multiple of the stack length
(the length itself included) activates no tab; the finalize handler clamps a
negative index to 0 (no activation) and treats a missing index as 1. -/
theorem activateAt_modular_safety (s : List TabId) (hs : s ≠ [])
    (p : Int) (hp : 0 ≤ p) (c : Int) (neg : Int) (hneg : neg < 0) :
    (activateAt s p = none ∨
      ∃ j : Fin s.length, activateAt s p = some (s.get j)) ∧
    activateAt s (c * (s.length : Int)) = none ∧
    finalizeIndex none = 1 ∧
    finalizeHandler s none = activateAt s 1 ∧
    finalizeHandler s (some neg) = none := by
  have hlen : 0 < s.length := List.length_pos.mpr hs
  have hlenI : (0 : Int) < (s.length : Int) := by exact_mod_cast hlen
  have hne : ¬ s.length = 0 := by omega
  refine ⟨?_, ?_, rfl, rfl, ?_⟩
  · unfold activateAt
    rw [if_neg hne]
    simp only [jsRem_norm_eq_emod _ _ hlenI]
    by_cases h0 : p % (s.length : Int) = 0
    · left
      rw [if_pos h0]
    · right
      have hnn : 0 ≤ p % (s.length : Int) := Int.emod_nonneg _ (by omega)
      have hlt : p % (s.length : Int) < (s.length : Int) :=
        Int.emod_lt_of_pos _ hlenI
      have hlt2 : (p % (s.length : Int)).toNat < s.length :=
        (Int.toNat_lt hnn).mpr hlt
      refine ⟨⟨(p % (s.length : Int)).toNat, hlt2⟩, ?_⟩
      rw [if_neg h0, List.getElem?_eq_getElem hlt2]
      simp [List.get_eq_getElem]
  · unfold activateAt
    rw [if_neg hne]
    simp [jsRem_norm_eq_emod _ _ hlenI, Int.mul_emod_left]
  · unfold finalizeHandler
    have hidx : finalizeIndex (some neg) = 0 := by
      unfold finalizeIndex
      simp only [Option.getD_some]
      omega
    rw [hidx]
    unfold activateAt
    rw [if_neg hne]
    simp [jsRem_norm_eq_emod _ _ hlenI]

/-- C10 witness: on [5, 3, 7], position 3 (the length) activates nothing, a
negative finalize index activates nothing, and a missing index means 1. -/
theorem activateAt_modular_safety_witness :
    (activateAt [5, 3, 7] 3 = none ∨
      ∃ j : Fin 3, activateAt [5, 3, 7] 3 = some ([5, 3, 7].get j)) ∧
    activateAt [5, 3, 7] (1 * 3) = none ∧
    finalizeIndex none = 1 ∧
    finalizeHandler [5, 3, 7] none = activateAt [5, 3, 7] 1 ∧
    finalizeHandler [5, 3, 7] (some (-2)) = none :=
  activateAt_modular_safety [5, 3, 7] (by decide) 3 (by decide) 1 (-2) (by decide)

/-- C6 counterexample: in the stack [5, 7], replacing fromTab 7 (which
occupies position 1) by toTab 5 removes the earlier occurrence of 5 and
yields [5]; position 1 of the result does not hold the inserted tab (it does
not exist), so toTab is not at the position fromTab occupied. -/
theorem replace_position_counterexample :
    ([5, 7] : List TabId).findIdx? (· = 7) = some 1 ∧
    replace [5, 7] 7 5 = some [5] ∧
    (([5] : List TabId)[1]? = some 5 → False) := by
  have hf : ([5, 7] : List TabId).findIdx? (· = 7) = some 1 := by decide
  refine ⟨hf, ?_, by decide⟩
  unfold replace
  rw [hf]
  simp only [eraseAllLoop_eq_filter]
  decide

/-- C6 (amended): on a duplicate-free stack containing fromTab at index i,
with fromTab distinct from toTab, replace removes fromTab, removes every
pre-existing occurrence of toTab, and inserts toTab at index i clamped to
the length of the remaining entries (JS splice semantics), leaving the
relative order of all other entries unchanged. -/
theorem replace_spec (s : List TabId) (f t : TabId) (i : Nat) (hnd : s.Nodup)
    (hf : s.findIdx? (· = f) = some i) (hft : f ≠ t) :
    ∃ r, replace s f t = some r ∧
      f ∉ r ∧
      r.count t = 1 ∧
      r.filter (· ≠ t) = (s.erase f).filter (· ≠ t) ∧
      r[min i (((s.erase f).filter (· ≠ t)).length)]? = some t := by
  have herase : s.eraseIdx i = s.erase f := eraseIdx_of_findIdx? s f i hf
  set rest : List TabId := (s.erase f).filter (· ≠ t) with hrest
  have hr : replace s f t = some (spliceInsert rest i t) := by
    unfold replace
    rw [hf]
    simp only [eraseAllLoop_eq_filter, herase, hrest]
  have htnotmem : t ∉ rest := by
    intro hmem
    have := (List.mem_filter.mp hmem).2
    simp at this
  have hfnotmem : f ∉ rest := by
    intro hmem
    have hmem2 : f ∈ s.erase f := (List.mem_filter.mp hmem).1
    exact absurd (hnd.mem_erase_iff.mp hmem2).1 (by simp)
  refine ⟨spliceInsert rest i t, hr, ?_, ?_, ?_, ?_⟩
  · unfold spliceInsert
    intro hmem
    rcases List.mem_append.mp hmem with h1 | h2
    · exact hfnotmem (List.mem_of_mem_take h1)
    · rcases List.mem_cons.mp h2 with h3 | h4
      · exact hft h3
      · exact hfnotmem (List.mem_of_mem_drop h4)
  · unfold spliceInsert
    rw [List.count_append, List.count_cons]
    have h1 : (rest.take i).count t = 0 := by
      rw [List.count_eq_zero]
      intro hmem
      exact htnotmem (List.mem_of_mem_take hmem)
    have h2 : (rest.drop i).count t = 0 := by
      rw [List.count_eq_zero]
      intro hmem
      exact htnotmem (List.mem_of_mem_drop hmem)
    simp [h1, h2]
  · unfold spliceInsert
    rw [List.filter_append, List.filter_cons]
    have hdec : (decide (t ≠ t)) = false := by simp
    rw [hdec]
    simp only [Bool.false_eq_true, if_false]
    rw [← List.filter_append, List.take_append_drop]
    rw [List.filter_eq_self.mpr]
    intro x hx
    simp only [ne_eq, decide_eq_true_eq]
    rintro rfl
    exact htnotmem hx
  · unfold spliceInsert
    have hlen : (rest.take i).length = min i rest.length := List.length_take i rest
    rw [List.getElem?_append_right (by omega)]
    rw [hlen]
    simp

/-- C6 witness for the amended theorem: replace 7 by 5 in [9, 7, 5]. -/
theorem replace_spec_witness :
    ∃ r, replace [9, 7, 5] 7 5 = some r ∧
      7 ∉ r ∧
      r.count 5 = 1 ∧
      r.filter (· ≠ 5) = (([9, 7, 5] : List TabId).erase 7).filter (· ≠ 5) ∧
      r[min 1 (((([9, 7, 5] : List TabId).erase 7).filter (· ≠ 5)).length)]? =
        some 5 :=
  replace_spec [9, 7, 5] 7 5 1 (by decide) (by decide) (by decide)

/-! ## Store aliasing model (`ensure`/`getStack`, background.ts 129-134 and
258-261)

JS arrays are heap objects handled by reference.  The heap is the list of
allocated arrays and an `ArrRef` is an index into it; the `stacks` map binds
a window id to the reference of its array.  `getStack` returns
`stacks.get(windowId) ?? []`, i.e. the reference held in the map itself, so
the embedding returns the reference and lets a caller mutate through it. -/

abbrev ArrRef := Nat

/-- The mutable state of the mruStore closure: allocated arrays plus the
`stacks` map from window id to array reference. -/
structure StoreState where
  heap : List (List TabId)
  stacksMap : List (Nat × ArrRef)
deriving DecidableEq

/-- Read the array behind a reference. -/
def readRef (st : StoreState) (r : ArrRef) : List TabId :=
  st.heap.getD r []

/-- Overwrite the array behind a reference (in-place JS mutation). -/
def writeRef (st : StoreState) (r : ArrRef) (v : List TabId) : StoreState :=
  { st with heap := st.heap.set r v }

/-- `ensure(windowId)`: bind the window to a fresh empty array when the map
has no entry for it. -/
def ensure (st : StoreState) (w : Nat) : StoreState :=
  match st.stacksMap.lookup w with
  | some _ => st
  | none =>
    { heap := st.heap ++ [[]], stacksMap := st.stacksMap ++ [(w, st.heap.length)] }

/-- `getStack(windowId)`: `ensure(windowId); return stacks.get(windowId) ?? []`.
The returned value is the array object itself — a live reference into the
heap; the `?? []` arm would allocate a fresh empty array but is unreachable
after `ensure`. -/
def getStack (st : StoreState) (w : Nat) : StoreState × ArrRef :=
  let st1 := ensure st w
  match st1.stacksMap.lookup w with
  | some r => (st1, r)
  | none => ({ st1 with heap := st1.heap ++ [[]] }, st1.heap.length)

/-- The window's stack as the store itself sees it. -/
def internalStack (st : StoreState) (w : Nat) : List TabId :=
  match st.stacksMap.lookup w with
  | some r => readRef st r
  | none => []

/-- A caller mutating the list returned by `getStack`: push one element
through the reference. -/
def callerPush (st : StoreState) (r : ArrRef) (t : TabId) : StoreState :=
  writeRef st r (readRef st r ++ [t])

/-- C5 counterexample: window 1 holds the stack [5, 7]; `getStack` hands the
caller a reference to the internal array, and pushing 9 through it changes
the store's own view of the stack to [5, 7, 9] — the internal stack does not
stay unchanged, so the returned list is not a defensive copy. -/
theorem getStack_copy_counterexample :
    internalStack
        (callerPush (getStack ⟨[[5, 7]], [(1, 0)]⟩ 1).1
          (getStack ⟨[[5, 7]], [(1, 0)]⟩ 1).2 9) 1 = [5, 7, 9] ∧
    internalStack ⟨[[5, 7]], [(1, 0)]⟩ 1 = [5, 7] := by
  constructor
  · rfl
  · rfl

/-- C5 (amended): getStack returns the reference the stacks map itself holds
(no copy is made and the state is unchanged for an already-tracked window),
and a mutation performed by the caller through the returned reference is
visible in the window's internal stack. -/
theorem getStack_returns_alias (st : StoreState) (w : Nat) (r : ArrRef)
    (hr : st.stacksMap.lookup w = some r) (hv : r < st.heap.length) (t : TabId) :
    getStack st w = (st, r) ∧
    internalStack (callerPush st r t) w = internalStack st w ++ [t] := by
  have hens : ensure st w = st := by
    unfold ensure
    rw [hr]
  constructor
  · unfold getStack
    simp only [hens, hr]
  · unfold internalStack callerPush writeRef readRef
    simp only [hr]
    simp [List.getD_eq_getElem?_getD, List.getElem?_set_self, hv,
      List.getElem?_eq_getElem hv]

/-- C5 witness for the amended theorem: the concrete store above. -/
theorem getStack_returns_alias_witness :
    getStack ⟨[[5, 7]], [(1, 0)]⟩ 1 = (⟨[[5, 7]], [(1, 0)]⟩, 0) ∧
    internalStack (callerPush ⟨[[5, 7]], [(1, 0)]⟩ 0 9) 1 =
      internalStack ⟨[[5, 7]], [(1, 0)]⟩ 1 ++ [9] :=
  getStack_returns_alias ⟨[[5, 7]], [(1, 0)]⟩ 1 0 (by decide) (by decide) 9

/-! ## Favicon cache (`faviconStore`, background.ts lines 302-605)

A cache namespace is a JS `Map` from a key (exact icon URL, or hostname) to
an entry; JS `Map`s keep insertion order and have unique keys, so the
embedding is an association list whose key list is duplicate-free wherever
that invariant matters.  Time is a `Nat` of epoch milliseconds
(`Date.now()`). -/

/-- One cache entry: `dataUri` of `none` records a cached failure. -/
structure CacheEntry where
  dataUri : Option String
  expiresAt : Nat
deriving DecidableEq

/-- A cache namespace (`byHost` or `byUrl`). -/
abbrev CacheMap := List (String × CacheEntry)

/-- `map.set(k, v)`: update in place when the key exists (JS `Map.set` keeps
the original insertion position), append otherwise. -/
def mapSet (m : CacheMap) (k : String) (v : CacheEntry) : CacheMap :=
  match m with
  | [] => [(k, v)]
  | (k0, v0) :: rest => if k0 = k then (k, v) :: rest else (k0, v0) :: mapSet rest k v

/-- `map.delete(k)`: with unique keys, deleting the entry is filtering the
key out. -/
def mapDelete (m : CacheMap) (k : String) : CacheMap :=
  m.filter (fun kv => kv.1 ≠ k)

def CACHE_TTL_MS : Nat := 1000 * 60 * 60 * 24 * 7

def MAX_HOST_ENTRIES : Nat := 256

def MAX_URL_ENTRIES : Nat := 256

/-- `readCache(map, key)` (lines 478-487): absent key is a miss; an entry
whose expiry has passed is deleted and reported as a miss; otherwise the
stored value (possibly the negative `null`) is returned.  The first
component distinguishes `undefined` (`none`) from a hit. -/
def readCache (m : CacheMap) (key : String) (now : Nat) :
    Option (Option String) × CacheMap :=
  match m.lookup key with
  | none => (none, m)
  | some entry =>
    if entry.expiresAt ≤ now then (none, mapDelete m key)
    else (some entry.dataUri, m)

/-- The comparator `(a, b) => a[1].expiresAt - b[1].expiresAt` used to order
entries by nearest expiry first. -/
def expiryLe (a b : String × CacheEntry) : Bool :=
  a.2.expiresAt ≤ b.2.expiresAt

/-- The first pass of `pruneMap` (lines 375-392): drop expired entries. -/
def liveEntries (m : CacheMap) (now : Nat) : CacheMap :=
  m.filter (fun kv => now < kv.2.expiresAt)

/-- Keys dequeued by the eviction loop of `pruneMap`: the first `k` keys in
nearest-expiry order.  With unique keys every `delete` succeeds, so the
`while (map.size > maxEntries)` loop removes exactly the excess count. -/
def pruneVictims (live : CacheMap) (k : Nat) : List String :=
  ((live.mergeSort expiryLe).take k).map Prod.fst

/-- `pruneMap(map, maxEntries)` (lines 375-392): remove expired entries;
then, while over capacity, evict the entries with the nearest expiry. -/
def pruneMap (m : CacheMap) (now mx : Nat) : CacheMap :=
  if (liveEntries m now).length ≤ mx then liveEntries m now
  else
    (liveEntries m now).filter
      (fun kv =>
        kv.1 ∉ pruneVictims (liveEntries m now) ((liveEntries m now).length - mx))

/-- `writeCache(map, key, dataUri, maxEntries)` (lines 489-501): store the
value with a fresh `Date.now() + CACHE_TTL_MS` expiry, then prune. -/
def writeCache (m : CacheMap) (key : String) (dataUri : Option String)
    (now mx : Nat) : CacheMap :=
  pruneMap (mapSet m key ⟨dataUri, now + CACHE_TTL_MS⟩) now mx

theorem lookup_mapDelete (m : CacheMap) (k : String) :
    (mapDelete m k).lookup k = none := by
  induction m with
  | nil => rfl
  | cons kv rest ih =>
    obtain ⟨k0, v0⟩ := kv
    by_cases h : k0 = k
    · simpa [mapDelete, List.filter_cons, h] using ih
    · have hb : (k == k0) = false := by
        simp [Ne.symm h]
      simpa [mapDelete, List.filter_cons, h, List.lookup, hb] using ih

theorem expiryLe_trans (a b c : String × CacheEntry) :
    expiryLe a b = true → expiryLe b c = true → expiryLe a c = true := by
  unfold expiryLe
  intro h1 h2
  simp at h1 h2 ⊢
  omega

theorem expiryLe_total (a b : String × CacheEntry) :
    (expiryLe a b || expiryLe b a) = true := by
  unfold expiryLe
  simp [Nat.le_total]

theorem filter_victims_take (live : CacheMap) (k : Nat) :
    ((live.mergeSort expiryLe).take k).filter
      (fun kv => kv.1 ∉ pruneVictims live k) = [] := by
  rw [List.filter_eq_nil_iff]
  intro kv hkv
  simp only [decide_eq_true_eq, Decidable.not_not]
  exact List.mem_map_of_mem Prod.fst hkv

theorem pruneMap_length_le (m : CacheMap) (now mx : Nat) :
    (pruneMap m now mx).length ≤ mx := by
  unfold pruneMap
  split
  · next h => exact h
  · next h =>
    push_neg at h
    set live := liveEntries m now with hlive
    set P : String × CacheEntry → Bool :=
      fun kv => kv.1 ∉ pruneVictims live (live.length - mx) with hP
    have hperm : (live.mergeSort expiryLe).Perm live :=
      List.mergeSort_perm live expiryLe
    have hlen1 : (live.filter P).length =
        ((live.mergeSort expiryLe).filter P).length :=
      (List.Perm.filter P hperm).length_eq.symm
    rw [hlen1]
    rw [← List.take_append_drop (live.length - mx) (live.mergeSort expiryLe)]
    rw [List.filter_append]
    rw [filter_victims_take live (live.length - mx)]
    simp only [List.nil_append]
    calc (((live.mergeSort expiryLe).drop (live.length - mx)).filter P).length
        ≤ ((live.mergeSort expiryLe).drop (live.length - mx)).length :=
          List.length_filter_le _ _
      _ ≤ mx := by
          rw [List.length_drop, hperm.length_eq]
          omega

theorem pruneMap_evicts_nearest_expiry (m : CacheMap) (now mx : Nat)
    (hnd : (m.map Prod.fst).Nodup)
    (x : String × CacheEntry) (hx : x ∈ m) (hxlive : now < x.2.expiresAt)
    (hout : x ∉ pruneMap m now mx) :
    ∀ y ∈ pruneMap m now mx, x.2.expiresAt ≤ y.2.expiresAt := by
  have hxl : x ∈ liveEntries m now := by
    rw [liveEntries, List.mem_filter]
    exact ⟨hx, by simpa using hxlive⟩
  unfold pruneMap at hout ⊢
  split at hout
  · exact absurd hxl hout
  · next h =>
    push_neg at h
    rw [if_neg (by omega)]
    set live := liveEntries m now with hlive
    set k := live.length - mx with hk
    intro y hy
    have hyl : y ∈ live := (List.mem_filter.mp hy).1
    have hyv : y.1 ∉ pruneVictims live k := by
      have := (List.mem_filter.mp hy).2
      simpa using this
    have hxv : x.1 ∈ pruneVictims live k := by
      by_contra hc
      exact hout (List.mem_filter.mpr ⟨hxl, by simpa using hc⟩)
    have hperm : (live.mergeSort expiryLe).Perm live :=
      List.mergeSort_perm live expiryLe
    have hndlive : (live.map Prod.fst).Nodup := by
      have hsub : (live.map Prod.fst).Sublist (m.map Prod.fst) :=
        (List.filter_sublist m).map Prod.fst
      exact hsub.nodup hnd
    have hndsorted : ((live.mergeSort expiryLe).map Prod.fst).Nodup :=
      ((hperm.map Prod.fst).nodup_iff).mpr hndlive
    have hxs : x ∈ live.mergeSort expiryLe := hperm.mem_iff.mpr hxl
    have hys : y ∈ live.mergeSort expiryLe := hperm.mem_iff.mpr hyl
    have hsplit := List.take_append_drop k (live.mergeSort expiryLe)
    have hpair : List.Pairwise (fun a b => expiryLe a b = true)
        (live.mergeSort expiryLe) :=
      List.sorted_mergeSort expiryLe_trans expiryLe_total live
    rw [← hsplit] at hpair hndsorted hxs hys
    have hcross := (List.pairwise_append.mp hpair).2.2
    have hytake : y ∉ (live.mergeSort expiryLe).take k := by
      intro hmem
      exact hyv (List.mem_map_of_mem Prod.fst hmem)
    have hydrop : y ∈ (live.mergeSort expiryLe).drop k := by
      rcases List.mem_append.mp hys with h1 | h2
      · exact absurd h1 hytake
      · exact h2
    have hxtake : x ∈ (live.mergeSort expiryLe).take k := by
      rcases List.mem_append.mp hxs with h1 | h2
      · exact h1
      · exfalso
        rw [List.map_append, List.nodup_append] at hndsorted
        obtain ⟨x2, hx2mem, hx2key⟩ := List.mem_map.mp hxv
        exact hndsorted.2.2 (hx2key ▸ List.mem_map_of_mem Prod.fst hx2mem)
          (List.mem_map_of_mem Prod.fst h2)
    have := hcross x hxtake y hydrop
    simpa [expiryLe] using this

/-- C8: in each favicon cache namespace independently, reading a key whose
entry has expired removes the entry and behaves as a miss (the stale value
is never returned, forcing a refresh), and after every write the namespace
holds at most its maximum entry count, the excess being evicted in order of
nearest expiry first (every evicted live entry expires no later than every
survivor). -/
theorem cache_ttl_and_cap
    (m : CacheMap) (key : String) (e : CacheEntry) (now : Nat)
    (hold : m.lookup key = some e) (hexp : e.expiresAt ≤ now)
    (m2 : CacheMap) (key2 : String) (d2 : Option String) (now2 mx : Nat)
    (hnd : ((mapSet m2 key2 ⟨d2, now2 + CACHE_TTL_MS⟩).map Prod.fst).Nodup) :
    (readCache m key now).1 = none ∧
    (readCache m key now).2.lookup key = none ∧
    (writeCache m2 key2 d2 now2 mx).length ≤ mx ∧
    (∀ x ∈ mapSet m2 key2 ⟨d2, now2 + CACHE_TTL_MS⟩,
        now2 < x.2.expiresAt → x ∉ writeCache m2 key2 d2 now2 mx →
        ∀ y ∈ writeCache m2 key2 d2 now2 mx, x.2.expiresAt ≤ y.2.expiresAt) := by
  refine ⟨?_, ?_, pruneMap_length_le _ _ _, ?_⟩
  · unfold readCache
    rw [hold]
    simp [hexp]
  · unfold readCache
    rw [hold]
    simp only [hexp, if_true]
    exact lookup_mapDelete m key
  · intro x hx hlive hout y hy
    exact pruneMap_evicts_nearest_expiry _ now2 mx hnd x hx hlive hout y hy

/-- C8 witness: an expired entry read at a later time, and a capacity-1
namespace written past its cap. -/
theorem cache_ttl_and_cap_witness :
    (readCache [("a", ⟨some "u", 5⟩)] "a" 10).1 = none ∧
    (readCache [("a", ⟨some "u", 5⟩)] "a" 10).2.lookup "a" = none ∧
    (writeCache [("b", ⟨some "x", 100⟩)] "c" none 10 1).length ≤ 1 ∧
    (∀ x ∈ mapSet [("b", ⟨some "x", 100⟩)] "c" ⟨none, 10 + CACHE_TTL_MS⟩,
        10 < x.2.expiresAt →
        x ∉ writeCache [("b", ⟨some "x", 100⟩)] "c" none 10 1 →
        ∀ y ∈ writeCache [("b", ⟨some "x", 100⟩)] "c" none 10 1,
          x.2.expiresAt ≤ y.2.expiresAt) :=
  cache_ttl_and_cap [("a", ⟨some "u", 5⟩)] "a" ⟨some "u", 5⟩ 10 (by decide)
    (by decide) [("b", ⟨some "x", 100⟩)] "c" none 10 1 (by decide)

/-! ## Favicon resolution (`resolve`, `fetchAndCacheUrl`,
`resolveHostFavicon`, background.ts lines 503-597) -/

/-- The fields of a `chrome.tabs.Tab` that `resolve` inspects. -/
structure TabInfo where
  favIconUrl : Option String
  url : Option String
  pendingUrl : Option String

/-- The two cache namespaces of the favicon store. -/
structure FaviconState where
  byHost : CacheMap
  byUrl : CacheMap
deriving DecidableEq

/-- External collaborators of favicon resolution: the network fetch
converted to a data URI (`fetchAsDataURI`, `none` when the fetch, the
response status or the conversion fails) and hostname extraction through
`new URL` (`extractHostname`). -/
structure FaviconEnv where
  fetchAsDataURI : String → Option String
  extractHostname : String → Option String

/-- JS `favIconUrl.startsWith("data:")`, stated over the character lists so
that the kernel can evaluate it on concrete strings. -/
def strStartsWith (s p : String) : Bool := p.data.isPrefixOf s.data

/-- The DuckDuckGo icon service URL built in `resolveHostFavicon`. -/
def ddgFaviconUrl (hostname : String) : String :=
  "https://icons.duckduckgo.com/ip3/" ++ hostname ++ ".ico"

/-- `tab.url ?? tab.pendingUrl` passed through `extractHostname`. -/
def canonicalHost (env : FaviconEnv) (tab : TabInfo) : Option String :=
  (match tab.url with
    | some u => some u
    | none => tab.pendingUrl).bind env.extractHostname

/-- `fetchAndCacheUrl(url)` (lines 518-542): re-check the URL cache, then
fetch; a success is cached and returned, a failure is cached negatively and
yields null — both under the URL key.  The pending-promise map only affects
concurrent callers and is modelled separately. -/
def fetchAndCacheUrl (env : FaviconEnv) (now : Nat) (st : FaviconState)
    (url : String) : Option String × FaviconState :=
  match readCache st.byUrl url now with
  | (some cached, m2) => (cached, { st with byUrl := m2 })
  | (none, m2) =>
    match env.fetchAsDataURI url with
    | some dataUri =>
      (some dataUri,
        { st with byUrl := writeCache m2 url (some dataUri) now MAX_URL_ENTRIES })
    | none =>
      (none, { st with byUrl := writeCache m2 url none now MAX_URL_ENTRIES })

/-- `resolveHostFavicon(hostname)` (lines 544-569): check the hostname
cache, then fetch the DuckDuckGo service URL; success or negative failure is
written under the hostname key. -/
def resolveHostFavicon (env : FaviconEnv) (now : Nat) (st : FaviconState)
    (hostname : String) : Option String × FaviconState :=
  match readCache st.byHost hostname now with
  | (some cached, m2) => (cached, { st with byHost := m2 })
  | (none, m2) =>
    match env.fetchAsDataURI (ddgFaviconUrl hostname) with
    | some dataUri =>
      (some dataUri,
        { st with byHost := writeCache m2 hostname (some dataUri) now MAX_HOST_ENTRIES })
    | none =>
      (none, { st with byHost := writeCache m2 hostname none now MAX_HOST_ENTRIES })

/-- `resolve(tab)` (lines 571-597): a `data:` icon is returned as is; a tab
advertising an icon URL goes through the URL cache and `fetchAndCacheUrl`;
only a tab without one derives a hostname and goes through the hostname
cache and `resolveHostFavicon`; without a hostname the result is null. -/
def resolve (env : FaviconEnv) (now : Nat) (st : FaviconState)
    (tab : TabInfo) : Option String × FaviconState :=
  match tab.favIconUrl with
  | some fav =>
    if strStartsWith fav "data:" then (some fav, st)
    else
      match readCache st.byUrl fav now with
      | (some cached, m2) => (cached, { st with byUrl := m2 })
      | (none, m2) => fetchAndCacheUrl env now { st with byUrl := m2 } fav
  | none =>
    match canonicalHost env tab with
    | none => (none, st)
    | some hostname =>
      match readCache st.byHost hostname now with
      | (some cached, m2) => (cached, { st with byHost := m2 })
      | (none, m2) => resolveHostFavicon env now { st with byHost := m2 } hostname

theorem readCache_miss_again (m : CacheMap) (k : String) (now : Nat)
    (m2 : CacheMap) (h : readCache m k now = (none, m2)) :
    readCache m2 k now = (none, m2) := by
  unfold readCache at h ⊢
  cases hl : m.lookup k with
  | none =>
    rw [hl] at h
    injection h with h1 h2
    subst h2
    rw [hl]
  | some e =>
    rw [hl] at h
    by_cases he : e.expiresAt ≤ now
    · simp [he] at h
      subst h
      rw [lookup_mapDelete m k]
    · simp [he] at h

/-- An environment for the C7 counterexample: every fetch fails and every
URL parses to the hostname "host". -/
def cexEnv : FaviconEnv where
  fetchAsDataURI := fun _ => none
  extractHostname := fun _ => some "host"

/-- A tab advertising a non-data icon URL on a page of hostname "host". -/
def cexTab : TabInfo where
  favIconUrl := some "http://x/i.png"
  url := some "https://host/p"
  pendingUrl := none

/-- A favicon store whose hostname cache holds a fresh icon for "host" and
whose URL cache is empty. -/
def cexSt : FaviconState where
  byHost := [("host", ⟨some "data:hosticon", 999⟩)]
  byUrl := []

/-- C7 counterexample: the tab advertises a (non data:) icon URL while the
hostname cache holds a fresh icon for its host.  Under the claimed order the
hostname cache would be consulted and its icon returned, and a total failure
would write the negative entry into the hostname cache.  The code returns
null despite the fresh hostname entry, leaves the hostname cache untouched,
and writes the negative entry into the exact-URL cache instead. -/
theorem resolve_order_counterexample :
    (resolve cexEnv 0 cexSt cexTab).1 = none ∧
    cexSt.byHost.lookup "host" = some ⟨some "data:hosticon", 999⟩ ∧
    (0 : Nat) < 999 ∧
    (resolve cexEnv 0 cexSt cexTab).2.byHost = cexSt.byHost ∧
    (resolve cexEnv 0 cexSt cexTab).2.byHost.lookup "http://x/i.png" = none ∧
    (resolve cexEnv 0 cexSt cexTab).2.byUrl.lookup "http://x/i.png" =
      some ⟨none, CACHE_TTL_MS⟩ := by
  refine ⟨?_, by decide, by decide, ?_, by decide, ?_⟩ <;> decide

/-- C7 (amended): the implemented resolution order.  A data: icon is
returned unconditionally, bypassing both caches.  A tab advertising a
non-data icon URL uses only the exact-URL namespace: the hostname namespace
is never written and never influences the returned value; a URL-cache hit is
returned, and on a miss a single fetch of that URL is attempted whose
outcome (the icon, or null on failure) is returned and written — negatively
on failure, with the standard TTL — under the URL key.  Only a tab without
an advertised icon URL uses the hostname namespace: with no derivable
hostname the result is null and nothing is written; a hostname-cache hit is
returned; on a miss a single fetch of the DuckDuckGo service URL is
attempted and its outcome written under the hostname key, the URL namespace
staying untouched. -/
theorem resolve_actual_order (env : FaviconEnv) (now : Nat)
    (st : FaviconState) (tab : TabInfo) :
    (∀ fav, tab.favIconUrl = some fav → strStartsWith fav "data:" = true →
      resolve env now st tab = (some fav, st)) ∧
    (∀ fav, tab.favIconUrl = some fav →
      (resolve env now st tab).2.byHost = st.byHost) ∧
    (∀ fav u h1 h2, tab.favIconUrl = some fav →
      (resolve env now ⟨h1, u⟩ tab).1 = (resolve env now ⟨h2, u⟩ tab).1) ∧
    (∀ fav c m2, tab.favIconUrl = some fav → strStartsWith fav "data:" = false →
      readCache st.byUrl fav now = (some c, m2) →
      resolve env now st tab = (c, { st with byUrl := m2 })) ∧
    (∀ fav m2, tab.favIconUrl = some fav → strStartsWith fav "data:" = false →
      readCache st.byUrl fav now = (none, m2) →
      resolve env now st tab =
        (env.fetchAsDataURI fav,
          { st with byUrl :=
              writeCache m2 fav (env.fetchAsDataURI fav) now MAX_URL_ENTRIES })) ∧
    (tab.favIconUrl = none →
      (resolve env now st tab).2.byUrl = st.byUrl ∧
      (canonicalHost env tab = none → resolve env now st tab = (none, st))) ∧
    (∀ hostname, tab.favIconUrl = none →
      canonicalHost env tab = some hostname →
      (∀ c m2, readCache st.byHost hostname now = (some c, m2) →
        resolve env now st tab = (c, { st with byHost := m2 })) ∧
      (∀ m2, readCache st.byHost hostname now = (none, m2) →
        resolve env now st tab =
          (env.fetchAsDataURI (ddgFaviconUrl hostname),
            { st with byHost :=
                (writeCache m2 hostname (env.fetchAsDataURI (ddgFaviconUrl hostname))
                  now MAX_HOST_ENTRIES) }))) := by
  refine ⟨?_, ?_, ?_, ?_, ?_, ?_, ?_⟩
  · intro fav hfav hdata
    unfold resolve
    rw [hfav]
    dsimp only
    rw [if_pos hdata]
  · intro fav hfav
    unfold resolve
    rw [hfav]
    dsimp only
    by_cases hdata : strStartsWith fav "data:" = true
    · rw [if_pos hdata]
    · rw [if_neg hdata]
      rcases hr : readCache st.byUrl fav now with ⟨r1, m2⟩
      cases r1 with
      | some c => rfl
      | none =>
        unfold fetchAndCacheUrl
        dsimp only
        rw [readCache_miss_again _ _ _ _ hr]
        cases env.fetchAsDataURI fav <;> rfl
  · intro fav u h1 h2 hfav
    unfold resolve
    rw [hfav]
    dsimp only
    by_cases hdata : strStartsWith fav "data:" = true
    · rw [if_pos hdata, if_pos hdata]
    · rw [if_neg hdata, if_neg hdata]
      rcases hr : readCache u fav now with ⟨r1, m2⟩
      cases r1 with
      | some c => rfl
      | none =>
        unfold fetchAndCacheUrl
        dsimp only
        rw [readCache_miss_again _ _ _ _ hr]
        cases env.fetchAsDataURI fav <;> rfl
  · intro fav c m2 hfav hdata hr
    unfold resolve
    rw [hfav]
    dsimp only
    rw [if_neg (by simp [hdata]), hr]
  · intro fav m2 hfav hdata hr
    unfold resolve
    rw [hfav]
    dsimp only
    rw [if_neg (by simp [hdata]), hr]
    unfold fetchAndCacheUrl
    dsimp only
    rw [readCache_miss_again _ _ _ _ hr]
    cases env.fetchAsDataURI fav <;> rfl
  · intro hfav
    constructor
    · unfold resolve
      rw [hfav]
      dsimp only
      rcases hh : canonicalHost env tab with - | hostname
      · rfl
      · dsimp only
        rcases hr : readCache st.byHost hostname now with ⟨r1, m2⟩
        cases r1 with
        | some c => rfl
        | none =>
          unfold resolveHostFavicon
          dsimp only
          rw [readCache_miss_again _ _ _ _ hr]
          cases env.fetchAsDataURI (ddgFaviconUrl hostname) <;> rfl
    · intro hhost
      unfold resolve
      rw [hfav]
      dsimp only
      rw [hhost]
  · intro hostname hfav hhost
    constructor
    · intro c m2 hr
      unfold resolve
      rw [hfav]
      dsimp only
      rw [hhost]
      dsimp only
      rw [hr]
    · intro m2 hr
      unfold resolve
      rw [hfav]
      dsimp only
      rw [hhost]
      dsimp only
      rw [hr]
      unfold resolveHostFavicon
      dsimp only
      rw [readCache_miss_again _ _ _ _ hr]
      cases env.fetchAsDataURI (ddgFaviconUrl hostname) <;> rfl

/-- C7 witness for the amended theorem, at the counterexample input: the
URL-branch miss with a failing fetch returns null and records the negative
entry under the URL key; the hostname namespace is untouched. -/
theorem resolve_actual_order_witness :
    resolve cexEnv 0 cexSt cexTab =
      (none, { cexSt with byUrl := writeCache [] "http://x/i.png" none 0 MAX_URL_ENTRIES }) ∧
    (resolve cexEnv 0 cexSt cexTab).2.byHost = cexSt.byHost := by
  have h := resolve_actual_order cexEnv 0 cexSt cexTab
  refine ⟨?_, h.2.1 "http://x/i.png" rfl⟩
  have h5 := h.2.2.2.2.1 "http://x/i.png" [] rfl (by decide) (by decide)
  exact h5

/-! ## Fetch de-duplication (`pendingByUrl`/`pendingByHost`,
background.ts lines 518-569)

The background script runs on a single-threaded event loop: from the cache
check through `pendingByUrl.set(url, promise)` there is no `await`, so the
check-and-register sequence of one resolution request is atomic, and calling
the async IIFE starts exactly one network fetch.  A request step below is
that synchronous prefix; concurrent callers interleave only between steps.
The model counts started fetches in `fetchesStarted` and identifies a
caller's result with the promise it awaits. -/

/-- What a caller gets back from the synchronous part of
`fetchAndCacheUrl`: an already-settled value (cache hit) or a promise to
await. -/
inductive RequestResult where
  | value (v : Option String)
  | promise (id : Nat)
deriving DecidableEq

/-- The per-namespace state seen by `fetchAndCacheUrl`: the cache, the
pending-promise map, a fresh-promise counter and the log of started
fetches. -/
structure DedupState where
  byUrl : CacheMap
  pendingByUrl : List (String × Nat)
  nextPromise : Nat
  fetchesStarted : List String
deriving DecidableEq

/-- The synchronous prefix of `fetchAndCacheUrl(url)`: return a cached
value; otherwise return the pending promise when one exists; otherwise
create the promise (which starts the single fetch) and register it in
`pendingByUrl`. -/
def requestUrl (st : DedupState) (url : String) (now : Nat) :
    RequestResult × DedupState :=
  match readCache st.byUrl url now with
  | (some cached, m2) => (.value cached, { st with byUrl := m2 })
  | (none, m2) =>
    let st2 : DedupState := { st with byUrl := m2 }
    match st2.pendingByUrl.lookup url with
    | some p => (.promise p, st2)
    | none =>
      (.promise st2.nextPromise,
        { st2 with
            pendingByUrl := st2.pendingByUrl ++ [(url, st2.nextPromise)],
            nextPromise := st2.nextPromise + 1,
            fetchesStarted := st2.fetchesStarted ++ [url] })

theorem lookup_append_of_none (l1 l2 : List (String × Nat)) (k : String)
    (h : l1.lookup k = none) : (l1 ++ l2).lookup k = l2.lookup k := by
  induction l1 with
  | nil => rfl
  | cons kv rest ih =>
    obtain ⟨k0, v0⟩ := kv
    rw [List.cons_append]
    cases hb : (k == k0) with
    | true => simp [List.lookup, hb] at h
    | false =>
      simp only [List.lookup, hb] at h ⊢
      exact ih h

/-- The pending-map hit branch of `fetchAndCacheUrl`: a cache miss with a
registered pending promise returns that promise and starts nothing. -/
theorem requestUrl_pending (s : DedupState) (url : String) (now : Nat)
    (p : Nat) (hm : (readCache s.byUrl url now).1 = none)
    (hp : s.pendingByUrl.lookup url = some p) :
    requestUrl s url now =
      (.promise p, { s with byUrl := (readCache s.byUrl url now).2 }) := by
  unfold requestUrl
  rcases hrc : readCache s.byUrl url now with ⟨r1, m2⟩
  rw [hrc] at hm
  simp only at hm
  subst hm
  dsimp only
  rw [hp]

/-- The fresh branch of `fetchAndCacheUrl`: a cache miss with no pending
promise creates and registers one promise and starts one fetch. -/
theorem requestUrl_fresh (s : DedupState) (url : String) (now : Nat)
    (hm : (readCache s.byUrl url now).1 = none)
    (hp : s.pendingByUrl.lookup url = none) :
    requestUrl s url now =
      (.promise s.nextPromise,
        { s with
            byUrl := (readCache s.byUrl url now).2,
            pendingByUrl := s.pendingByUrl ++ [(url, s.nextPromise)],
            nextPromise := s.nextPromise + 1,
            fetchesStarted := s.fetchesStarted ++ [url] }) := by
  unfold requestUrl
  rcases hrc : readCache s.byUrl url now with ⟨r1, m2⟩
  rw [hrc] at hm
  simp only at hm
  subst hm
  dsimp only
  rw [hp]

/-- C9: while an earlier resolution request for a key is pending (registered
in the pending map) and the key is still a cache miss, a further request for
the same key starts no network fetch and receives the same promise as the
earlier caller; and two back-to-back requests for a missing, untracked key
start exactly one fetch between them and share one promise. -/
theorem pending_fetch_dedup (st : DedupState) (url : String) (now : Nat)
    (p : Nat) (hpend : st.pendingByUrl.lookup url = some p)
    (hmiss : (readCache st.byUrl url now).1 = none)
    (st0 : DedupState) (h0pend : st0.pendingByUrl.lookup url = none)
    (h0miss : (readCache st0.byUrl url now).1 = none) :
    ((requestUrl st url now).1 = .promise p ∧
      (requestUrl st url now).2.fetchesStarted = st.fetchesStarted) ∧
    ((requestUrl st0 url now).1 = .promise st0.nextPromise ∧
      (requestUrl (requestUrl st0 url now).2 url now).1 =
        (requestUrl st0 url now).1 ∧
      (requestUrl (requestUrl st0 url now).2 url now).2.fetchesStarted =
        st0.fetchesStarted ++ [url]) := by
  constructor
  · rw [requestUrl_pending st url now p hmiss hpend]
    exact ⟨rfl, rfl⟩
  · rw [requestUrl_fresh st0 url now h0miss h0pend]
    have hm1 : (readCache (readCache st0.byUrl url now).2 url now).1 = none := by
      rcases hrc : readCache st0.byUrl url now with ⟨r1, m2⟩
      rw [hrc] at h0miss
      simp only at h0miss
      subst h0miss
      rw [readCache_miss_again st0.byUrl url now m2 hrc]
    have hp1 : (st0.pendingByUrl ++ [(url, st0.nextPromise)]).lookup url =
        some st0.nextPromise := by
      rw [lookup_append_of_none st0.pendingByUrl _ url h0pend]
      simp [List.lookup]
    rw [requestUrl_pending _ url now st0.nextPromise (by simpa using hm1)
      (by simpa using hp1)]
    exact ⟨rfl, rfl, rfl⟩

/-- C9 witness: a key with a pending promise, and a fresh key requested
twice. -/
theorem pending_fetch_dedup_witness :
    ((requestUrl ⟨[], [("u", 42)], 43, ["u"]⟩ "u" 0).1 = .promise 42 ∧
      (requestUrl ⟨[], [("u", 42)], 43, ["u"]⟩ "u" 0).2.fetchesStarted = ["u"]) ∧
    ((requestUrl ⟨[], [], 0, []⟩ "u" 0).1 = .promise 0 ∧
      (requestUrl (requestUrl ⟨[], [], 0, []⟩ "u" 0).2 "u" 0).1 =
        (requestUrl ⟨[], [], 0, []⟩ "u" 0).1 ∧
      (requestUrl (requestUrl ⟨[], [], 0, []⟩ "u" 0).2 "u" 0).2.fetchesStarted =
        [] ++ ["u"]) :=
  pending_fetch_dedup ⟨[], [("u", 42)], 43, ["u"]⟩ "u" 0 42 (by decide)
    (by decide) ⟨[], [], 0, []⟩ (by decide) (by decide)

end SwiftTab
